import Mathlib

/-!
Verification of the Breakthrough bitboard move generator.

The generator represents a position as two 64-bit words (`me`, `them`) over a
`WIDTH × HEIGHT` board linearized as `row * WIDTH + col`, row 0 being the
side-to-move's back rank.  `State::children` flips the perspective by
reversing the bit order inside the low `AREA` bits and then advances every
piece of the flipped mover set one row, producing straight-forward and
diagonal-forward destinations confined to the row ahead by a per-piece row
mask.  `State::is_lost` tests whether the opponent reached the mover's back
rank.

Machine integers are embedded as `Nat` with explicit reductions mod `2 ^ 64`
(`u64`) and mod `2 ^ 32` (`u32`) exactly where the compiled (release-build)
code wraps.  The debug-build overflow checks, which abort instead of
wrapping, are modelled separately by `Option`-valued variants (`none` means
the debug build aborts).
-/

namespace Breakthrough

/-- Truncation of a `Nat` to a `u64` value. -/
def mod64 (x : Nat) : Nat := x % 2 ^ 64

/-- Bitwise complement on a 64-bit word (Rust `!x` on `u64`). -/
def not64 (x : Nat) : Nat := x ^^^ (2 ^ 64 - 1)

/-- One butterfly stage of a 64-bit bit reversal: swap adjacent blocks of
`s` bits selected by the mask `m`. -/
def swapMasked (s m x : Nat) : Nat := x >>> s &&& m ||| (x &&& m) <<< s

/-- Rust `u64::reverse_bits`, as the standard butterfly network: bit `i` of
the 64-bit input becomes bit `63 - i`. -/
def rev64 (x : Nat) : Nat :=
  let x := mod64 x
  let x := mod64 (x >>> 32 ||| x <<< 32)
  let x := swapMasked 16 0x0000FFFF0000FFFF x
  let x := swapMasked 8 0x00FF00FF00FF00FF x
  let x := swapMasked 4 0x0F0F0F0F0F0F0F0F x
  let x := swapMasked 2 0x3333333333333333 x
  swapMasked 1 0x5555555555555555 x

/-- The perspective realignment used by `State::children`:
`x.reverse_bits() >> (u64::BITS - Self::AREA)`, a 180-degree rotation of the
board inside the low `area` bits. -/
def flipBoard (area x : Nat) : Nat := rev64 x >>> (64 - area)

/-- The Rust `State` bitboard pair; both fields are `u64` values. -/
structure State where
  me : Nat
  them : Nat
  deriving DecidableEq, Repr

/-- Rust `State::AREA = WIDTH * HEIGHT` (its compile-time assertions are
captured by `validGeom`). -/
def AREA (W H : Nat) : Nat := W * H

/-- Rust `State::ROW_MASK`: `let bit = 1 << (WIDTH - 1); (bit - 1) | bit`,
the low `WIDTH` bits. -/
def ROW_MASK (W : Nat) : Nat := (1 <<< (W - 1) - 1) ||| 1 <<< (W - 1)

/-- The geometries the Rust code accepts at compile time: `WIDTH >= 1`
(otherwise the shift inside the `ROW_MASK` constant already overflows), the
assertion `HEIGHT >= 4`, and the assertion `WIDTH * HEIGHT <= u64::BITS`. -/
def validGeom (W H : Nat) : Prop := 1 ≤ W ∧ 4 ≤ H ∧ W * H ≤ 64

instance (W H : Nat) : Decidable (validGeom W H) := by
  unfold validGeom; infer_instance

/-- Rust `impl Default for State`: the mover fills rows 0 and 1
(`ROW_MASK | ROW_MASK << WIDTH`), the opponent the mirrored top two rows
(`me << (AREA - 2 * WIDTH)`). -/
def default (W H : Nat) : State :=
  let me := ROW_MASK W ||| (ROW_MASK W <<< W) % 2 ^ 64
  let them := (me <<< (AREA W H - 2 * W)) % 2 ^ 64
  { me := me, them := them }

/-- One step of the bit-scanning iterator (`bit_iter::BitIter`): prepend the
`(index, isolated bit)` pair for position `i` when bit `i` of `x` is set. -/
def scanBit (x i : Nat) (acc : List (Nat × Nat)) : List (Nat × Nat) :=
  cond (Nat.beq (x >>> i % 2) 1) ((i, 1 <<< i) :: acc) acc

/-- Scan of one nibble of `x` (bit positions `k` to `k + 3`), skipping it
wholesale when it is zero. -/
def scanNib (x k : Nat) (acc : List (Nat × Nat)) : List (Nat × Nat) :=
  cond (Nat.beq (x >>> k % 16) 0) acc
    (scanBit x k (scanBit x (k + 1) (scanBit x (k + 2) (scanBit x (k + 3) acc))))

/-- Scan of one 16-bit chunk of `x` (bit positions `k` to `k + 15`),
skipping it wholesale when it is zero. -/
def scanChunk (x k : Nat) (acc : List (Nat × Nat)) : List (Nat × Nat) :=
  cond (Nat.beq (x >>> k % 65536) 0) acc
    (scanNib x k (scanNib x (k + 4) (scanNib x (k + 8) (scanNib x (k + 12) acc))))

/-- The bit-scanning iterator (`bit_iter::BitIter`) over a `u64`: the set
bits of `x` from low to high, as `(index, isolated bit)` pairs. -/
def bits (x : Nat) : List (Nat × Nat) :=
  scanChunk x 0 (scanChunk x 16 (scanChunk x 32 (scanChunk x 48 [])))

/-- The per-piece row-ahead mask `Self::ROW_MASK << (i / WIDTH - 1) * WIDTH`
under release-build Rust semantics: the `u32` subtraction and multiplication
wrap mod `2 ^ 32`, the `u64` shift masks its amount mod 64 and truncates its
result to 64 bits. -/
def rowMaskFor (W i : Nat) : Nat :=
  (ROW_MASK W <<< ((i / W + (2 ^ 32 - 1)) % 2 ^ 32 * W % 2 ^ 32 % 64)) % 2 ^ 64

/-- The `move_mask` of `State::children` for the advancing piece `bit`,
with the row-ahead mask `rm` supplied separately:
`(forward | diagonals) & !self.them & row_mask` where
`forward = bit >> WIDTH & !self.me` and
`diagonals = bit >> WIDTH - 1 | bit >> WIDTH + 1`. -/
def moveMaskWith (W me them bit rm : Nat) : Nat :=
  (bit >>> W &&& not64 me ||| (bit >>> (W - 1) ||| bit >>> (W + 1))) &&& not64 them &&& rm

/-- The `move_mask` computed in the `flat_map` body of `State::children` for
the advancing piece `bit = 1 <<< i`; `me` is the defending set and `them`
the advancing set (post-flip roles). -/
def moveMask (W me them i bit : Nat) : Nat :=
  moveMaskWith W me them bit (rowMaskFor W i)

/-- The inner `map` of `State::children`: one child per legal destination
bit, removing a captured defender piece from `me` and moving the advancing
piece inside `newThem = them ^ bit`. -/
def mkChildren (me newThem : Nat) : List (Nat × Nat) → List State
  | [] => []
  | q :: qs => { me := me &&& not64 q.2, them := newThem ^^^ q.2 } :: mkChildren me newThem qs

/-- The `flat_map` body of `State::children`: all children contributed by
the single advancing piece `p = (i, bit)`. -/
def childStep (W : Nat) (me them : Nat) (p : Nat × Nat) : List State :=
  mkChildren me (them ^^^ p.2) (bits (moveMask W me them p.1 p.2))

/-- Concatenation of the per-piece child lists (the `flat_map` itself). -/
def stepAll (W : Nat) (me them : Nat) : List (Nat × Nat) → List State
  | [] => []
  | p :: ps => childStep W me them p ++ stepAll W me them ps

/-- Rust `State::children`: flip the perspective (the original `me` becomes
the advancing set `them`, the original `them` the defending set `me`), then
advance every piece of the flipped `them` set. -/
def children (W H : Nat) (s : State) : List State :=
  let them := flipBoard (AREA W H) s.me
  let me := flipBoard (AREA W H) s.them
  stepAll W me them (bits them)

/-- Rust `State::is_lost`: `self.them & Self::ROW_MASK != 0`. -/
def is_lost (W : Nat) (s : State) : Bool := s.them &&& ROW_MASK W != 0

/-- Sum of a function over a list of states (`.map(...).sum()`). -/
def sumOver (f : State → Nat) : List State → Nat
  | [] => 0
  | c :: cs => f c + sumOver f cs

/-- The perft node counter from the repository's test module. -/
def perft (W H : Nat) : Nat → State → Nat
  | 0, _ => 1
  | d + 1, s => sumOver (perft W H d) (children W H s)

/-- Positions reachable from the default start via `children`. -/
inductive Reachable (W H : Nat) : State → Prop
  | init : Reachable W H (default W H)
  | step {s c : State} : Reachable W H s → c ∈ children W H s → Reachable W H c

/-- The row-ahead mask under debug-build semantics: the `u32` subtraction
`i / WIDTH - 1` and the shift abort (overflow check) instead of wrapping;
`none` models the abort. -/
def rowMaskForChecked (W i : Nat) : Option Nat :=
  if i / W = 0 then none
  else if 64 ≤ (i / W - 1) * W then none
  else some (ROW_MASK W <<< ((i / W - 1) * W))

/-- The `flat_map` body under debug-build semantics. -/
def childStepChecked (W : Nat) (me them : Nat) (p : Nat × Nat) : Option (List State) :=
  (rowMaskForChecked W p.1).map fun rm =>
    mkChildren me (them ^^^ p.2) (bits (moveMaskWith W me them p.2 rm))

/-- The `flat_map` under debug-build semantics: the first aborting piece
aborts the whole enumeration. -/
def stepAllChecked (W : Nat) (me them : Nat) : List (Nat × Nat) → Option (List State)
  | [] => some []
  | p :: ps =>
    match childStepChecked W me them p with
    | none => none
    | some cur => (stepAllChecked W me them ps).map (cur ++ ·)

/-- Rust `State::children` under debug-build semantics: `none` exactly when
an overflow check aborts. -/
def childrenChecked (W H : Nat) (s : State) : Option (List State) :=
  let them := flipBoard (AREA W H) s.me
  let me := flipBoard (AREA W H) s.them
  stepAllChecked W me them (bits them)

/-- Number of set bits among the low 64 bits (the piece count of one side's
bitboard). -/
def popCount64 (x : Nat) : Nat :=
  ∑ j ∈ Finset.range 64, if x.testBit j then 1 else 0

end Breakthrough

namespace Breakthrough

/-! ### Bit reversal characterization -/

/-- Subtracting a half-window `s` shifts a position's residue mod `2 * s`
by `s` (cyclically). -/
theorem mod_sub_shift (s j : Nat) (hs : 1 ≤ s) (hj : s ≤ j) :
    (j - s) % (2 * s) = (j % (2 * s) + s) % (2 * s) := by
  have h1 : (j + s) % (2 * s) = (j - s) % (2 * s) := by
    rw [Nat.mod_eq_sub_mod (show j + s ≥ 2 * s by omega)]
    congr 1
    omega
  rw [← h1, Nat.add_mod]
  rw [Nat.mod_eq_of_lt (show s < 2 * s by omega)]

/-- Butterfly-stage action on a single bit position: for a mask `m` that
selects the lower block of every `2 * s`-wide window, the stage swaps each
position with the one `s` away. -/
theorem testBit_swapMasked (s m x j : Nat) (hj : j < 64) (hs : 1 ≤ s)
    (hm : ∀ t, t < 64 → (m.testBit t = decide (t % (2 * s) < s))) :
    (swapMasked s m x).testBit j =
      if j % (2 * s) < s then x.testBit (j + s) else x.testBit (j - s) := by
  have hr : j % (2 * s) < 2 * s := Nat.mod_lt _ (by omega)
  simp only [swapMasked, Nat.testBit_or, Nat.testBit_and, Nat.testBit_shiftLeft,
    Nat.testBit_shiftRight]
  rw [hm j hj]
  rcases Nat.lt_or_ge (j % (2 * s)) s with h | h
  · rw [if_pos h, decide_eq_true h, Bool.and_true]
    rcases Nat.lt_or_ge j s with h' | h'
    · rw [decide_eq_false (by omega : ¬ (j ≥ s))]
      simp [Nat.add_comm]
    · have hsub : (j - s) % (2 * s) = j % (2 * s) + s := by
        rw [mod_sub_shift s j hs h', Nat.mod_eq_of_lt (show j % (2 * s) + s < 2 * s by omega)]
      rw [hm (j - s) (by omega), hsub,
        decide_eq_false (show ¬ (j % (2 * s) + s < s) by omega)]
      simp [Nat.add_comm]
  · have hsj : s ≤ j := le_trans h (Nat.mod_le _ _)
    have hsub : (j - s) % (2 * s) = j % (2 * s) - s := by
      rw [mod_sub_shift s j hs hsj, Nat.mod_eq_sub_mod (show j % (2 * s) + s ≥ 2 * s by omega)]
      rw [Nat.mod_eq_of_lt (show j % (2 * s) + s - 2 * s < 2 * s by omega)]
      omega
    rw [if_neg (Nat.not_lt.mpr h), decide_eq_false (show ¬ (j % (2 * s) < s) by omega),
      Bool.and_false, Bool.false_or, hm (j - s) (by omega), hsub,
      decide_eq_true (show j % (2 * s) - s < s by omega),
      Bool.and_true, decide_eq_true (show j ≥ s from hsj), Bool.true_and]

theorem mask16_bits : ∀ t, t < 64 →
    ((0x0000FFFF0000FFFF : Nat).testBit t = decide (t % 32 < 16)) := by decide

theorem mask8_bits : ∀ t, t < 64 →
    ((0x00FF00FF00FF00FF : Nat).testBit t = decide (t % 16 < 8)) := by decide

theorem mask4_bits : ∀ t, t < 64 →
    ((0x0F0F0F0F0F0F0F0F : Nat).testBit t = decide (t % 8 < 4)) := by decide

theorem mask2_bits : ∀ t, t < 64 →
    ((0x3333333333333333 : Nat).testBit t = decide (t % 4 < 2)) := by decide

theorem mask1_bits : ∀ t, t < 64 →
    ((0x5555555555555555 : Nat).testBit t = decide (t % 2 < 1)) := by decide

theorem tb_swap16 (x j : Nat) (hj : j < 64) :
    (swapMasked 16 0x0000FFFF0000FFFF x).testBit j =
      if j % 32 < 16 then x.testBit (j + 16) else x.testBit (j - 16) :=
  testBit_swapMasked 16 _ x j hj (by norm_num) mask16_bits

theorem tb_swap8 (x j : Nat) (hj : j < 64) :
    (swapMasked 8 0x00FF00FF00FF00FF x).testBit j =
      if j % 16 < 8 then x.testBit (j + 8) else x.testBit (j - 8) :=
  testBit_swapMasked 8 _ x j hj (by norm_num) mask8_bits

theorem tb_swap4 (x j : Nat) (hj : j < 64) :
    (swapMasked 4 0x0F0F0F0F0F0F0F0F x).testBit j =
      if j % 8 < 4 then x.testBit (j + 4) else x.testBit (j - 4) :=
  testBit_swapMasked 4 _ x j hj (by norm_num) mask4_bits

theorem tb_swap2 (x j : Nat) (hj : j < 64) :
    (swapMasked 2 0x3333333333333333 x).testBit j =
      if j % 4 < 2 then x.testBit (j + 2) else x.testBit (j - 2) :=
  testBit_swapMasked 2 _ x j hj (by norm_num) mask2_bits

theorem tb_swap1 (x j : Nat) (hj : j < 64) :
    (swapMasked 1 0x5555555555555555 x).testBit j =
      if j % 2 < 1 then x.testBit (j + 1) else x.testBit (j - 1) :=
  testBit_swapMasked 1 _ x j hj (by norm_num) mask1_bits

theorem tb_mod64 (y t : Nat) (ht : t < 64) : (mod64 y).testBit t = y.testBit t := by
  rw [mod64, Nat.testBit_mod_two_pow]
  simp [ht]

theorem tb_rot32 (y j : Nat) (hj : j < 64) :
    (mod64 y >>> 32 ||| mod64 y <<< 32).testBit j =
      if j < 32 then y.testBit (j + 32) else y.testBit (j - 32) := by
  have hmy : ∀ t, (mod64 y).testBit t = (decide (t < 64) && y.testBit t) := by
    intro t; rw [mod64, Nat.testBit_mod_two_pow]
  simp only [Nat.testBit_or, Nat.testBit_shiftLeft, Nat.testBit_shiftRight, hmy]
  rcases Nat.lt_or_ge j 32 with h | h
  · rw [if_pos h, decide_eq_true (show 32 + j < 64 by omega),
      decide_eq_false (show ¬ (j ≥ 32) by omega)]
    simp [Nat.add_comm]
  · rw [if_neg (Nat.not_lt.mpr h), decide_eq_false (show ¬ (32 + j < 64) by omega),
      decide_eq_true (show j ≥ 32 from h), decide_eq_true (show j - 32 < 64 by omega)]
    simp

set_option maxHeartbeats 1600000 in
/-- Bit `j` of the reversed word is bit `63 - j` of the input. -/
theorem testBit_rev64 (x j : Nat) (hj : j < 64) :
    (rev64 x).testBit j = x.testBit (63 - j) := by
  unfold rev64
  interval_cases j <;>
    simp only [tb_swap1, tb_swap2, tb_swap4, tb_swap8, tb_swap16, tb_rot32, tb_mod64,
      Nat.reduceLT, Nat.reduceMod, Nat.reduceAdd, Nat.reduceSub, reduceIte]

example : rev64 0x123456789ABCDEF0 = 0x0F7B3D591E6A2C48 := by decide
example : bits 0x8001 = [(0, 1), (15, 0x8000)] := by decide
example : perft 4 16 1 (default 4 16) = 10 := by decide

/-! ### Board flip -/

theorem swapMasked_lt (s m x : Nat) (h : m <<< s < 2 ^ 64) : swapMasked s m x < 2 ^ 64 := by
  have hm : m < 2 ^ 64 := by
    refine Nat.lt_of_le_of_lt ?_ h
    rw [Nat.shiftLeft_eq]
    exact Nat.le_mul_of_pos_right _ (Nat.two_pow_pos s)
  apply Nat.or_lt_two_pow
  · exact Nat.lt_of_le_of_lt Nat.and_le_right hm
  · refine Nat.lt_of_le_of_lt ?_ h
    rw [Nat.shiftLeft_eq, Nat.shiftLeft_eq]
    exact Nat.mul_le_mul_right _ Nat.and_le_right

theorem rev64_lt (x : Nat) : rev64 x < 2 ^ 64 :=
  swapMasked_lt 1 0x5555555555555555 _ (by decide)

theorem flipBoard_lt (area x : Nat) : flipBoard area x < 2 ^ area := by
  apply Nat.lt_pow_two_of_testBit
  intro i hi
  rw [flipBoard, Nat.testBit_shiftRight]
  exact Nat.testBit_lt_two_pow
    (Nat.lt_of_lt_of_le (rev64_lt x) (Nat.pow_le_pow_right (by norm_num) (by omega)))

/-- Inside the low `area` bits, the flip is the 180-degree board rotation. -/
theorem testBit_flipBoard (area x j : Nat) (hA : area ≤ 64) (hj : j < area) :
    (flipBoard area x).testBit j = x.testBit (area - 1 - j) := by
  rw [flipBoard, Nat.testBit_shiftRight, testBit_rev64 _ _ (by omega)]
  congr 1
  omega

theorem testBit_flipBoard_ge (area x j : Nat) (hj : area ≤ j) :
    (flipBoard area x).testBit j = false :=
  Nat.testBit_lt_two_pow
    (Nat.lt_of_lt_of_le (flipBoard_lt area x) (Nat.pow_le_pow_right (by norm_num) hj))

/-! ### Bit iterator membership -/

theorem beq_shift_testBit (x i : Nat) : Nat.beq (x >>> i % 2) 1 = x.testBit i := by
  rw [Nat.testBit_to_div_mod, ← Nat.shiftRight_eq_div_pow]
  cases h : Nat.beq (x >>> i % 2) 1
  · exact (decide_eq_false (Nat.ne_of_beq_eq_false h)).symm
  · exact (decide_eq_true (Nat.eq_of_beq_eq_true h)).symm

theorem mem_scanBit (x i : Nat) (acc : List (Nat × Nat)) (p : Nat × Nat) :
    p ∈ scanBit x i acc ↔ (x.testBit i = true ∧ p = (i, 1 <<< i)) ∨ p ∈ acc := by
  rw [scanBit, beq_shift_testBit]
  cases h : x.testBit i <;> simp [h]

/-- Bits inside a zero window are zero. -/
theorem testBit_eq_false_of_mod (x k j n : Nat) (h : (x >>> k) % 2 ^ n = 0) (hj : j < n) :
    x.testBit (k + j) = false := by
  have h1 : x.testBit (k + j) = ((x >>> k) % 2 ^ n).testBit j := by
    rw [Nat.testBit_mod_two_pow, Nat.testBit_shiftRight]
    simp [hj]
  rw [h1, h, Nat.zero_testBit]

theorem mem_scanNib (x k : Nat) (acc : List (Nat × Nat)) (p : Nat × Nat) :
    p ∈ scanNib x k acc ↔
      (∃ j, j < 4 ∧ x.testBit (k + j) = true ∧ p = (k + j, 1 <<< (k + j))) ∨ p ∈ acc := by
  rw [scanNib]
  cases h : Nat.beq (x >>> k % 16) 0
  · rw [cond_false]
    simp only [mem_scanBit]
    constructor
    · rintro (⟨hb, rfl⟩ | ⟨hb, rfl⟩ | ⟨hb, rfl⟩ | ⟨hb, rfl⟩ | hp)
      · exact Or.inl ⟨0, by omega, by simpa using hb, by simp⟩
      · exact Or.inl ⟨1, by omega, hb, rfl⟩
      · exact Or.inl ⟨2, by omega, hb, rfl⟩
      · exact Or.inl ⟨3, by omega, hb, rfl⟩
      · exact Or.inr hp
    · rintro (⟨j, hj, hb, rfl⟩ | hp)
      · interval_cases j
        · exact Or.inl ⟨by simpa using hb, by simp⟩
        · exact Or.inr (Or.inl ⟨hb, rfl⟩)
        · exact Or.inr (Or.inr (Or.inl ⟨hb, rfl⟩))
        · exact Or.inr (Or.inr (Or.inr (Or.inl ⟨hb, rfl⟩)))
      · exact Or.inr (Or.inr (Or.inr (Or.inr hp)))
  · rw [cond_true]
    have hz : (x >>> k) % 2 ^ 4 = 0 := by
      have := Nat.eq_of_beq_eq_true h
      norm_num
      exact this
    constructor
    · exact fun hp => Or.inr hp
    · rintro (⟨j, hj, hb, rfl⟩ | hp)
      · rw [testBit_eq_false_of_mod x k j 4 hz hj] at hb
        exact absurd hb (by simp)
      · exact hp

theorem mem_scanChunk (x k : Nat) (acc : List (Nat × Nat)) (p : Nat × Nat) :
    p ∈ scanChunk x k acc ↔
      (∃ j, j < 16 ∧ x.testBit (k + j) = true ∧ p = (k + j, 1 <<< (k + j))) ∨ p ∈ acc := by
  rw [scanChunk]
  cases h : Nat.beq (x >>> k % 65536) 0
  · rw [cond_false]
    simp only [mem_scanNib]
    constructor
    · rintro (⟨j, hj, hb, rfl⟩ | ⟨j, hj, hb, hp⟩ | ⟨j, hj, hb, hp⟩ | ⟨j, hj, hb, hp⟩ | hp)
      · exact Or.inl ⟨j, by omega, hb, rfl⟩
      · refine Or.inl ⟨4 + j, by omega, ?_, ?_⟩ <;> rw [← Nat.add_assoc] <;> assumption
      · refine Or.inl ⟨8 + j, by omega, ?_, ?_⟩ <;> rw [← Nat.add_assoc] <;> assumption
      · refine Or.inl ⟨12 + j, by omega, ?_, ?_⟩ <;> rw [← Nat.add_assoc] <;> assumption
      · exact Or.inr hp
    · rintro (⟨j, hj, hb, rfl⟩ | hp)
      · rcases Nat.lt_or_ge j 4 with h4 | h4
        · exact Or.inl ⟨j, h4, hb, rfl⟩
        rcases Nat.lt_or_ge j 8 with h8 | h8
        · refine Or.inr (Or.inl ⟨j - 4, by omega, ?_, ?_⟩)
          · rw [show k + 4 + (j - 4) = k + j by omega]; exact hb
          · rw [show k + 4 + (j - 4) = k + j by omega]
        rcases Nat.lt_or_ge j 12 with h12 | h12
        · refine Or.inr (Or.inr (Or.inl ⟨j - 8, by omega, ?_, ?_⟩))
          · rw [show k + 8 + (j - 8) = k + j by omega]; exact hb
          · rw [show k + 8 + (j - 8) = k + j by omega]
        · refine Or.inr (Or.inr (Or.inr (Or.inl ⟨j - 12, by omega, ?_, ?_⟩)))
          · rw [show k + 12 + (j - 12) = k + j by omega]; exact hb
          · rw [show k + 12 + (j - 12) = k + j by omega]
      · exact Or.inr (Or.inr (Or.inr (Or.inr hp)))
  · rw [cond_true]
    have hz : (x >>> k) % 2 ^ 16 = 0 := by
      have := Nat.eq_of_beq_eq_true h
      norm_num
      exact this
    constructor
    · exact fun hp => Or.inr hp
    · rintro (⟨j, hj, hb, rfl⟩ | hp)
      · rw [testBit_eq_false_of_mod x k j 16 hz hj] at hb
        exact absurd hb (by simp)
      · exact hp

/-- Membership in the bit iterator output: exactly the set bits below 64,
as `(index, isolated bit)` pairs. -/
theorem mem_bits (x : Nat) (p : Nat × Nat) :
    p ∈ bits x ↔ ∃ j, j < 64 ∧ x.testBit j = true ∧ p = (j, 1 <<< j) := by
  rw [bits]
  simp only [mem_scanChunk, List.not_mem_nil, or_false]
  constructor
  · rintro (⟨j, hj, hb, rfl⟩ | ⟨j, hj, hb, hp⟩ | ⟨j, hj, hb, hp⟩ | ⟨j, hj, hb, hp⟩)
    · exact ⟨j, by omega, by simpa using hb, by simp⟩
    · exact ⟨16 + j, by omega, hb, hp⟩
    · exact ⟨32 + j, by omega, hb, hp⟩
    · exact ⟨48 + j, by omega, hb, hp⟩
  · rintro ⟨j, hj, hb, rfl⟩
    rcases Nat.lt_or_ge j 16 with h16 | h16
    · exact Or.inl ⟨j, h16, by simpa using hb, by simp⟩
    rcases Nat.lt_or_ge j 32 with h32 | h32
    · refine Or.inr (Or.inl ⟨j - 16, by omega, ?_, ?_⟩)
      · rw [show 16 + (j - 16) = j by omega]; exact hb
      · rw [show 16 + (j - 16) = j by omega]
    rcases Nat.lt_or_ge j 48 with h48 | h48
    · refine Or.inr (Or.inr (Or.inl ⟨j - 32, by omega, ?_, ?_⟩))
      · rw [show 32 + (j - 32) = j by omega]; exact hb
      · rw [show 32 + (j - 32) = j by omega]
    · refine Or.inr (Or.inr (Or.inr ⟨j - 48, by omega, ?_, ?_⟩))
      · rw [show 48 + (j - 48) = j by omega]; exact hb
      · rw [show 48 + (j - 48) = j by omega]

/-! ### Children membership -/

theorem mem_mkChildren (me newThem : Nat) (l : List (Nat × Nat)) (c : State) :
    c ∈ mkChildren me newThem l ↔
      ∃ q ∈ l, c = { me := me &&& not64 q.2, them := newThem ^^^ q.2 } := by
  induction l with
  | nil => simp [mkChildren]
  | cons q qs ih => simp [mkChildren, ih]

theorem mem_childStep (W : Nat) (me them : Nat) (p : Nat × Nat) (c : State) :
    c ∈ childStep W me them p ↔
      ∃ q ∈ bits (moveMask W me them p.1 p.2),
        c = { me := me &&& not64 q.2, them := (them ^^^ p.2) ^^^ q.2 } := by
  rw [childStep, mem_mkChildren]

theorem mem_stepAll (W : Nat) (me them : Nat) (l : List (Nat × Nat)) (c : State) :
    c ∈ stepAll W me them l ↔ ∃ p ∈ l, c ∈ childStep W me them p := by
  induction l with
  | nil => simp [stepAll]
  | cons p ps ih => simp [stepAll, ih, List.mem_append]

/-- Full unpacking of membership in `children`: a child is determined by the
advancing piece's flipped index `i` and its destination index `d`. -/
theorem mem_children (W H : Nat) (s c : State) :
    c ∈ children W H s ↔
      ∃ i, i < 64 ∧ (flipBoard (AREA W H) s.me).testBit i = true ∧
        ∃ d, d < 64 ∧
          (moveMask W (flipBoard (AREA W H) s.them) (flipBoard (AREA W H) s.me) i
            (1 <<< i)).testBit d = true ∧
          c = { me := flipBoard (AREA W H) s.them &&& not64 (1 <<< d),
                them := (flipBoard (AREA W H) s.me ^^^ 1 <<< i) ^^^ 1 <<< d } := by
  show c ∈ stepAll W (flipBoard (AREA W H) s.them) (flipBoard (AREA W H) s.me)
      (bits (flipBoard (AREA W H) s.me)) ↔ _
  rw [mem_stepAll]
  constructor
  · rintro ⟨p, hp, hc⟩
    rw [mem_bits] at hp
    obtain ⟨i, hi, hbi, rfl⟩ := hp
    rw [mem_childStep] at hc
    obtain ⟨q, hq, rfl⟩ := hc
    rw [mem_bits] at hq
    obtain ⟨d, hd, hbd, rfl⟩ := hq
    exact ⟨i, hi, hbi, d, hd, hbd, rfl⟩
  · rintro ⟨i, hi, hbi, d, hd, hbd, rfl⟩
    refine ⟨(i, 1 <<< i), ?_, ?_⟩
    · rw [mem_bits]; exact ⟨i, hi, hbi, rfl⟩
    · rw [mem_childStep]
      exact ⟨(d, 1 <<< d), by rw [mem_bits]; exact ⟨d, hd, hbd, rfl⟩, rfl⟩

/-! ### Row masks and the move mask -/

theorem ROW_MASK_eq (W : Nat) (hW : 1 ≤ W) : ROW_MASK W = 2 ^ W - 1 := by
  rw [ROW_MASK, Nat.one_shiftLeft]
  apply Nat.eq_of_testBit_eq
  intro j
  rw [Nat.testBit_or, Nat.testBit_two_pow_sub_one, Nat.testBit_two_pow_sub_one,
    Nat.testBit_two_pow]
  by_cases h1 : j < W - 1
  · simp [h1, show j < W by omega]
  · by_cases h2 : W - 1 = j
    · simp [h2, show j < W by omega]
    · simp [h1, h2, show ¬ (j < W) by omega]

theorem rowMaskFor_eq (W i : Nat) (hW : 1 ≤ W) (hiW : W ≤ i) (hi : i < 64) :
    rowMaskFor W i = ROW_MASK W <<< ((i / W - 1) * W) := by
  have hq1 : 1 ≤ i / W := (Nat.one_le_div_iff (by omega)).mpr hiW
  obtain ⟨q, hq⟩ : ∃ q, i / W = q + 1 := ⟨i / W - 1, by omega⟩
  have hmul : i / W * W ≤ i := Nat.div_mul_le_self i W
  rw [hq, Nat.succ_mul] at hmul
  generalize hA : q * W = A at hmul
  have hsub : i / W - 1 = q := by omega
  rw [rowMaskFor, hsub, hq]
  have e1 : (q + 1 + (2 ^ 32 - 1)) % 2 ^ 32 = q % 2 ^ 32 := by
    rw [show q + 1 + (2 ^ 32 - 1) = q + 2 ^ 32 by omega, Nat.add_mod_right]
  have hqlt : q < 2 ^ 32 := by
    have : i / W ≤ i := Nat.div_le_self i W
    omega
  rw [e1, Nat.mod_eq_of_lt hqlt, hA]
  rw [Nat.mod_eq_of_lt (show A < 2 ^ 32 by omega), Nat.mod_eq_of_lt (show A < 64 by omega)]
  apply Nat.mod_eq_of_lt
  rw [ROW_MASK_eq W hW, Nat.shiftLeft_eq]
  calc (2 ^ W - 1) * 2 ^ A < 2 ^ W * 2 ^ A :=
        (Nat.mul_lt_mul_right (Nat.two_pow_pos A)).mpr
          (Nat.sub_lt (Nat.two_pow_pos W) (by norm_num))
    _ = 2 ^ (W + A) := by rw [Nat.pow_add]
    _ ≤ 2 ^ 64 := Nat.pow_le_pow_right (by norm_num) (by omega)

theorem testBit_rowMaskFor (W i d : Nat) (hW : 1 ≤ W) (hiW : W ≤ i) (hi : i < 64) :
    ((rowMaskFor W i).testBit d = true) ↔
      ((i / W - 1) * W ≤ d ∧ d < (i / W - 1) * W + W) := by
  rw [rowMaskFor_eq W i hW hiW hi, ROW_MASK_eq W hW, Nat.testBit_shiftLeft,
    Nat.testBit_two_pow_sub_one]
  generalize (i / W - 1) * W = a
  simp only [Bool.and_eq_true, decide_eq_true_eq, ge_iff_le]
  omega

theorem rowMaskFor_underflow (W i : Nat) (hW : 1 ≤ W) (hW64 : W ≤ 64) (hi : i < W) :
    rowMaskFor W i = (ROW_MASK W <<< (64 - W)) % 2 ^ 64 := by
  rw [rowMaskFor, Nat.div_eq_of_lt hi]
  congr 2
  omega

theorem testBit_not64 (x j : Nat) (hj : j < 64) : (not64 x).testBit j = !x.testBit j := by
  rw [not64, Nat.testBit_xor, Nat.testBit_two_pow_sub_one, decide_eq_true hj]
  cases x.testBit j <;> rfl

/-- A piece already on the flipped row 0 (the pre-flip topmost row)
contributes an empty move mask: the wrapped row mask occupies the top
`WIDTH` bits of the word and misses every candidate. -/
theorem moveMask_zero_top (W me them i : Nat) (hW : 1 ≤ W) (hW16 : W ≤ 16) (hi : i < W) :
    moveMask W me them i (1 <<< i) = 0 := by
  apply Nat.eq_of_testBit_eq
  intro d
  rw [Nat.zero_testBit, moveMask, moveMaskWith, Nat.testBit_and, Nat.testBit_and]
  rcases Nat.lt_or_ge d (64 - W) with hd | hd
  · have hrm : (rowMaskFor W i).testBit d = false := by
      rw [rowMaskFor_underflow W i hW (by omega) hi, Nat.testBit_mod_two_pow,
        Nat.testBit_shiftLeft]
      rw [decide_eq_false (show ¬ (d ≥ 64 - W) by omega)]
      simp
    rw [hrm, Bool.and_false]
  · have hc : ((1 <<< i) >>> W &&& not64 me |||
        ((1 <<< i) >>> (W - 1) ||| (1 <<< i) >>> (W + 1))).testBit d = false := by
      rw [Nat.one_shiftLeft]
      simp only [Nat.testBit_or, Nat.testBit_and, Nat.testBit_shiftRight, Nat.testBit_two_pow]
      rw [decide_eq_false (show ¬ (i = W + d) by omega),
        decide_eq_false (show ¬ (i = W - 1 + d) by omega),
        decide_eq_false (show ¬ (i = W + 1 + d) by omega)]
      simp
    rw [hc, Bool.false_and, Bool.false_and]

/-- Pointwise description of the move mask for the piece `1 <<< i` (with
forward room, `W ≤ i`): a destination bit is set exactly when it avoids the
advancing side, lies in the row ahead, and is the straight-forward square
(then also free of the defender) or one of the two diagonal squares. -/
theorem testBit_moveMask (W me them i d : Nat) (hW : 1 ≤ W) (hiW : W ≤ i) (hi : i < 64)
    (hd : d < 64) :
    ((moveMask W me them i (1 <<< i)).testBit d = true) ↔
      (them.testBit d = false ∧ ((i / W - 1) * W ≤ d ∧ d < (i / W - 1) * W + W) ∧
        ((i = W + d ∧ me.testBit d = false) ∨ i = W - 1 + d ∨ i = W + 1 + d)) := by
  rw [moveMask, moveMaskWith, Nat.one_shiftLeft]
  simp only [Nat.testBit_and, Nat.testBit_or, Nat.testBit_shiftRight, Nat.testBit_two_pow,
    testBit_not64 me d hd, testBit_not64 them d hd, Bool.and_eq_true, Bool.or_eq_true,
    decide_eq_true_eq, Bool.not_eq_true']
  rw [show ((rowMaskFor W i).testBit d = true) ↔ _ from testBit_rowMaskFor W i d hW hiW hi]
  tauto

theorem moveMask_lt (W me them i bit : Nat) : moveMask W me them i bit < 2 ^ 64 := by
  refine Nat.lt_of_le_of_lt Nat.and_le_right ?_
  rw [rowMaskFor]
  exact Nat.mod_lt _ (by norm_num)

/-- Positions inside a `W`-aligned window have the expected division and
remainder. -/
theorem window_div_mod (W d A q : Nat) (hW : 1 ≤ W) (hA : A = q * W)
    (h1 : A ≤ d) (h2 : d < A + W) : d / W = q ∧ d % W = d - A := by
  have hdiv : d / W = q := by
    apply Nat.div_eq_of_lt_le
    · omega
    · rw [Nat.succ_mul]; omega
  have hdm := Nat.div_add_mod d W
  rw [hdiv] at hdm
  have : W * q = A := by rw [hA, Nat.mul_comm]
  rw [this] at hdm
  exact ⟨hdiv, by omega⟩

/-- Everything the invariants need about a generated destination `d` of the
piece `1 <<< i`: the piece had forward room, the destination is strictly
below the source, free of the advancing side, exactly one row closer to the
flipped row 0, and horizontally adjacent or straight ahead (no wraparound). -/
theorem moveMask_dest (W me them i d : Nat) (hW : 1 ≤ W) (hW16 : W ≤ 16) (hi : i < 64)
    (h : (moveMask W me them i (1 <<< i)).testBit d = true) :
    W ≤ i ∧ d < i ∧ them.testBit d = false ∧ d / W + 1 = i / W ∧
      (d % W + 1 = i % W ∨ d % W = i % W ∨ d % W = i % W + 1) := by
  rcases Nat.lt_or_ge i W with hiW | hiW
  · rw [moveMask_zero_top W me them i hW hW16 hiW, Nat.zero_testBit] at h
    exact absurd h (by simp)
  have hd : d < 64 := by
    by_contra hd
    have h2 := Nat.testBit_implies_ge h
    have h3 := moveMask_lt W me them i (1 <<< i)
    have : (2 : Nat) ^ 64 ≤ 2 ^ d := Nat.pow_le_pow_right (by norm_num) (by omega)
    omega
  rw [testBit_moveMask W me them i d hW hiW hi hd] at h
  obtain ⟨hthem, ⟨hw1, hw2⟩, hcand⟩ := h
  have hq1 : 1 ≤ i / W := (Nat.one_le_div_iff (by omega)).mpr hiW
  obtain ⟨q, hq⟩ : ∃ q, i / W = q + 1 := ⟨i / W - 1, by omega⟩
  have hsub : i / W - 1 = q := by omega
  rw [hsub] at hw1 hw2
  obtain ⟨hddiv, hdmod⟩ := window_div_mod W d (q * W) q hW rfl hw1 hw2
  have hidm := Nat.div_add_mod i W
  rw [hq, Nat.mul_succ] at hidm
  have hcomm : W * q = q * W := Nat.mul_comm W q
  rw [hcomm] at hidm
  have hrW : i % W < W := Nat.mod_lt _ (by omega)
  generalize hA : q * W = A at hw1 hw2 hidm hdmod
  refine ⟨hiW, by omega, hthem, by omega, ?_⟩
  rcases hcand with ⟨hc, _⟩ | hc | hc <;> omega

/-! ### Disjointness and bounds -/

theorem land_eq_zero_iff (x y : Nat) :
    x &&& y = 0 ↔ ∀ j, x.testBit j = false ∨ y.testBit j = false := by
  constructor
  · intro h j
    have h2 : (x.testBit j && y.testBit j) = false := by
      rw [← Nat.testBit_and, h, Nat.zero_testBit]
    cases hx : x.testBit j
    · exact Or.inl rfl
    · rw [hx, Bool.true_and] at h2
      exact Or.inr h2
  · intro h
    apply Nat.eq_of_testBit_eq
    intro j
    rw [Nat.testBit_and, Nat.zero_testBit]
    rcases h j with h' | h' <;> simp [h']

theorem land_eq_zero_of_lt_dvd (x y k : Nat) (hx : x < 2 ^ k) (hy : 2 ^ k ∣ y) :
    x &&& y = 0 := by
  obtain ⟨c, rfl⟩ := hy
  rw [land_eq_zero_iff]
  intro j
  rcases Nat.lt_or_ge j k with h | h
  · refine Or.inr ?_
    rw [Nat.testBit_mul_pow_two, decide_eq_false (show ¬ (j ≥ k) by omega)]
    rfl
  · exact Or.inl (Nat.testBit_lt_two_pow
      (Nat.lt_of_lt_of_le hx (Nat.pow_le_pow_right (by norm_num) h)))

theorem testBit_lt_of_lt (x n j : Nat) (hx : x < 2 ^ n) (h : x.testBit j = true) : j < n := by
  by_contra hj
  rw [Nat.testBit_lt_two_pow
    (Nat.lt_of_lt_of_le hx (Nat.pow_le_pow_right (by norm_num) (by omega)))] at h
  exact absurd h (by simp)

/-- The board flip turns a disjoint pair into a disjoint pair. -/
theorem flip_disjoint (area x y : Nat) (hA : area ≤ 64) (h : x &&& y = 0) :
    flipBoard area y &&& flipBoard area x = 0 := by
  rw [land_eq_zero_iff] at h ⊢
  intro j
  rcases Nat.lt_or_ge j area with hj | hj
  · rw [testBit_flipBoard area y j hA hj, testBit_flipBoard area x j hA hj]
    rcases h (area - 1 - j) with h' | h'
    · exact Or.inr h'
    · exact Or.inl h'
  · exact Or.inl (testBit_flipBoard_ge area y j hj)

/-- Geometry facts: a valid geometry has `W ≤ 16`, `2 * W ≤ AREA`,
`4 * W ≤ AREA` and `AREA ≤ 64`. -/
theorem validGeom_facts (W H : Nat) (hg : validGeom W H) :
    1 ≤ W ∧ W ≤ 16 ∧ 2 * W ≤ AREA W H ∧ 4 * W ≤ AREA W H ∧ AREA W H ≤ 64 := by
  obtain ⟨hW, hH, hA⟩ := hg
  have h4 : W * 4 ≤ W * H := Nat.mul_le_mul_left W hH
  rw [AREA]
  omega

theorem default_me_lt (W H : Nat) (hg : validGeom W H) :
    (default W H).me < 2 ^ (2 * W) := by
  obtain ⟨hW, -, -⟩ := hg
  show ROW_MASK W ||| (ROW_MASK W <<< W) % 2 ^ 64 < 2 ^ (2 * W)
  apply Nat.or_lt_two_pow
  · rw [ROW_MASK_eq W hW]
    calc 2 ^ W - 1 < 2 ^ W := Nat.sub_lt (Nat.two_pow_pos W) (by norm_num)
      _ ≤ 2 ^ (2 * W) := Nat.pow_le_pow_right (by norm_num) (by omega)
  · refine Nat.lt_of_le_of_lt (Nat.mod_le _ _) ?_
    rw [ROW_MASK_eq W hW, Nat.shiftLeft_eq]
    calc (2 ^ W - 1) * 2 ^ W < 2 ^ W * 2 ^ W :=
          (Nat.mul_lt_mul_right (Nat.two_pow_pos W)).mpr
            (Nat.sub_lt (Nat.two_pow_pos W) (by norm_num))
      _ = 2 ^ (2 * W) := by rw [← Nat.pow_add]; congr 1; omega

theorem default_them_eq (W H : Nat) (hg : validGeom W H) :
    (default W H).them = (default W H).me * 2 ^ (AREA W H - 2 * W) := by
  obtain ⟨-, -, h2W, -, hA64⟩ := validGeom_facts W H hg
  show ((default W H).me <<< (AREA W H - 2 * W)) % 2 ^ 64 =
    (default W H).me * 2 ^ (AREA W H - 2 * W)
  rw [Nat.shiftLeft_eq]
  apply Nat.mod_eq_of_lt
  calc (default W H).me * 2 ^ (AREA W H - 2 * W)
      < 2 ^ (2 * W) * 2 ^ (AREA W H - 2 * W) :=
        (Nat.mul_lt_mul_right (Nat.two_pow_pos _)).mpr (default_me_lt W H hg)
    _ = 2 ^ AREA W H := by rw [← Nat.pow_add]; congr 1; omega
    _ ≤ 2 ^ 64 := Nat.pow_le_pow_right (by norm_num) hA64

theorem default_disjoint (W H : Nat) (hg : validGeom W H) :
    (default W H).me &&& (default W H).them = 0 := by
  obtain ⟨-, -, h2W, h4W, -⟩ := validGeom_facts W H hg
  refine land_eq_zero_of_lt_dvd _ _ (2 * W) (default_me_lt W H hg) ?_
  rw [default_them_eq W H hg]
  exact Dvd.dvd.mul_left (pow_dvd_pow 2 (by omega)) _

theorem default_bounds (W H : Nat) (hg : validGeom W H) :
    (default W H).me < 2 ^ AREA W H ∧ (default W H).them < 2 ^ AREA W H := by
  obtain ⟨-, -, h2W, -, -⟩ := validGeom_facts W H hg
  constructor
  · exact Nat.lt_of_lt_of_le (default_me_lt W H hg)
      (Nat.pow_le_pow_right (by norm_num) (by omega))
  · rw [default_them_eq W H hg]
    calc (default W H).me * 2 ^ (AREA W H - 2 * W)
        < 2 ^ (2 * W) * 2 ^ (AREA W H - 2 * W) :=
          (Nat.mul_lt_mul_right (Nat.two_pow_pos _)).mpr (default_me_lt W H hg)
      _ = 2 ^ AREA W H := by rw [← Nat.pow_add]; congr 1; omega

/-- Any child of any state has both bitboards inside the `AREA`-bit
window. -/
theorem children_bounds (W H : Nat) (hg : validGeom W H) (s c : State)
    (hc : c ∈ children W H s) : c.me < 2 ^ AREA W H ∧ c.them < 2 ^ AREA W H := by
  obtain ⟨hW, hW16, -, -, hA64⟩ := validGeom_facts W H hg
  rw [mem_children] at hc
  obtain ⟨i, hi, hbi, d, hd, hbd, rfl⟩ := hc
  have hiA : i < AREA W H := testBit_lt_of_lt _ _ _ (flipBoard_lt _ s.me) hbi
  have hdest := moveMask_dest W _ _ i d hW hW16 hi hbd
  constructor
  · exact Nat.lt_of_le_of_lt Nat.and_le_left (flipBoard_lt _ s.them)
  · have h1 : (1 : Nat) <<< i < 2 ^ AREA W H := by
      rw [Nat.one_shiftLeft]
      exact Nat.pow_lt_pow_right (by norm_num) hiA
    have h2 : (1 : Nat) <<< d < 2 ^ AREA W H := by
      rw [Nat.one_shiftLeft]
      exact Nat.pow_lt_pow_right (by norm_num) (by omega)
    exact Nat.xor_lt_two_pow (Nat.xor_lt_two_pow (flipBoard_lt _ s.me) h1) h2

/-- Any child of a state with disjoint bitboards again has disjoint
bitboards. -/
theorem children_disjoint (W H : Nat) (hg : validGeom W H) (s c : State)
    (hdisj : s.me &&& s.them = 0) (hc : c ∈ children W H s) :
    c.me &&& c.them = 0 := by
  obtain ⟨hW, hW16, -, -, hA64⟩ := validGeom_facts W H hg
  rw [mem_children] at hc
  obtain ⟨i, hi, hbi, d, hd, hbd, rfl⟩ := hc
  have hfd : flipBoard (AREA W H) s.them &&& flipBoard (AREA W H) s.me = 0 :=
    flip_disjoint (AREA W H) s.me s.them hA64 hdisj
  rw [land_eq_zero_iff] at hfd
  rw [land_eq_zero_iff]
  intro j
  rcases Nat.lt_or_ge j 64 with hj64 | hj64
  · rw [Nat.testBit_and, testBit_not64 _ j hj64, Nat.one_shiftLeft, Nat.testBit_two_pow]
    by_cases hjd : d = j
    · rw [decide_eq_true hjd]
      exact Or.inl (by simp)
    · rw [decide_eq_false hjd]
      cases hme : (flipBoard (AREA W H) s.them).testBit j
      · exact Or.inl (by simp)
      · refine Or.inr ?_
        have hthem : (flipBoard (AREA W H) s.me).testBit j = false := by
          rcases hfd j with h' | h'
          · rw [hme] at h'; exact absurd h' (by simp)
          · exact h'
        have hij : i ≠ j := by
          intro he
          rw [he, hthem] at hbi
          exact absurd hbi (by simp)
        simp [Nat.testBit_xor, Nat.one_shiftLeft, Nat.testBit_two_pow, hthem, hij, hjd]
  · refine Or.inl ?_
    rw [Nat.testBit_and,
      testBit_flipBoard_ge (AREA W H) s.them j (by omega), Bool.false_and]

/-! ### Debug-semantics agreement -/

theorem rowAmt_le (W i : Nat) (hW : 1 ≤ W) (hiW : W ≤ i) : (i / W - 1) * W + W ≤ i := by
  have hq1 : 1 ≤ i / W := (Nat.one_le_div_iff (by omega)).mpr hiW
  obtain ⟨q, hq⟩ : ∃ q, i / W = q + 1 := ⟨i / W - 1, by omega⟩
  have hmul : i / W * W ≤ i := Nat.div_mul_le_self i W
  rw [hq, Nat.succ_mul] at hmul
  rw [hq, Nat.add_sub_cancel]
  generalize q * W = A at *
  omega

/-- With forward room (`W ≤ i < 64`), the debug-build row-mask computation
does not abort and agrees with the wrapped release-build one. -/
theorem rowMaskForChecked_eq (W i : Nat) (hW : 1 ≤ W) (hiW : W ≤ i) (hi : i < 64) :
    rowMaskForChecked W i = some (rowMaskFor W i) := by
  have hq1 : 1 ≤ i / W := (Nat.one_le_div_iff (by omega)).mpr hiW
  have hamt := rowAmt_le W i hW hiW
  rw [rowMaskForChecked, if_neg (by omega), if_neg (by omega), rowMaskFor_eq W i hW hiW hi]

theorem childStepChecked_eq (W me them : Nat) (p : Nat × Nat) (hW : 1 ≤ W)
    (hiW : W ≤ p.1) (hi : p.1 < 64) :
    childStepChecked W me them p = some (childStep W me them p) := by
  rw [childStepChecked, rowMaskForChecked_eq W p.1 hW hiW hi, Option.map_some']
  rw [childStep, moveMask]

theorem stepAllChecked_eq (W me them : Nat) (l : List (Nat × Nat)) (hW : 1 ≤ W)
    (h : ∀ p ∈ l, W ≤ p.1 ∧ p.1 < 64) :
    stepAllChecked W me them l = some (stepAll W me them l) := by
  induction l with
  | nil => rfl
  | cons p ps ih =>
    rw [stepAllChecked, childStepChecked_eq W me them p hW (h p (by simp)).1 (h p (by simp)).2]
    rw [ih (fun q hq => h q (by simp [hq]))]
    rfl

/-! ### Piece counting -/

theorem popCount64_eq_sum_lt (x n : Nat) (hx : x < 2 ^ n) (hn : n ≤ 64) :
    popCount64 x = ∑ j ∈ Finset.range n, if x.testBit j then 1 else 0 := by
  rw [popCount64, ← Finset.sum_range_add_sum_Ico _ hn]
  have hzero : ∑ j ∈ Finset.Ico n 64, (if x.testBit j then (1 : Nat) else 0) = 0 := by
    apply Finset.sum_eq_zero
    intro j hj
    rw [Finset.mem_Ico] at hj
    rw [Nat.testBit_lt_two_pow
      (Nat.lt_of_lt_of_le hx (Nat.pow_le_pow_right (by norm_num) hj.1))]
    rfl
  rw [hzero, Nat.add_zero]

/-- The perspective flip permutes the bits, so it preserves the piece
count. -/
theorem popCount64_flipBoard (area x : Nat) (hA : area ≤ 64) (hx : x < 2 ^ area) :
    popCount64 (flipBoard area x) = popCount64 x := by
  rw [popCount64_eq_sum_lt (flipBoard area x) area (flipBoard_lt area x) hA,
    popCount64_eq_sum_lt x area hx hA]
  calc ∑ j ∈ Finset.range area, (if (flipBoard area x).testBit j then (1 : Nat) else 0)
      = ∑ j ∈ Finset.range area, (if x.testBit (area - 1 - j) then (1 : Nat) else 0) := by
        apply Finset.sum_congr rfl
        intro j hj
        rw [Finset.mem_range] at hj
        rw [testBit_flipBoard area x j hA hj]
    _ = ∑ j ∈ Finset.range area, (if x.testBit j then (1 : Nat) else 0) :=
        Finset.sum_range_reflect (fun j => if x.testBit j = true then (1 : Nat) else 0) area

/-- Clearing a set bit by xor decrements the piece count. -/
theorem popCount64_flip_true (x d : Nat) (hd : d < 64) (h : x.testBit d = true) :
    popCount64 (x ^^^ 1 <<< d) + 1 = popCount64 x := by
  have hmem : d ∈ Finset.range 64 := Finset.mem_range.mpr hd
  have hL := Finset.add_sum_erase (Finset.range 64)
    (fun j => if (x ^^^ 1 <<< d).testBit j then (1 : Nat) else 0) hmem
  have hR := Finset.add_sum_erase (Finset.range 64)
    (fun j => if x.testBit j then (1 : Nat) else 0) hmem
  have hdbit : (x ^^^ 1 <<< d).testBit d = false := by
    rw [Nat.testBit_xor, Nat.one_shiftLeft, Nat.testBit_two_pow_self, h]
    rfl
  have hsame : ∀ j ∈ (Finset.range 64).erase d,
      (if (x ^^^ 1 <<< d).testBit j then (1 : Nat) else 0) = if x.testBit j then 1 else 0 := by
    intro j hj
    have hne : d ≠ j := (Finset.ne_of_mem_erase hj).symm
    rw [Nat.testBit_xor, Nat.one_shiftLeft, Nat.testBit_two_pow_of_ne hne]
    cases x.testBit j <;> rfl
  rw [popCount64, popCount64, ← hL, ← hR, Finset.sum_congr rfl hsame]
  simp only [hdbit, h]
  norm_num [Nat.add_comm]

/-- Setting a clear bit by xor increments the piece count. -/
theorem popCount64_flip_false (x d : Nat) (hd : d < 64) (h : x.testBit d = false) :
    popCount64 (x ^^^ 1 <<< d) = popCount64 x + 1 := by
  have hmem : d ∈ Finset.range 64 := Finset.mem_range.mpr hd
  have hL := Finset.add_sum_erase (Finset.range 64)
    (fun j => if (x ^^^ 1 <<< d).testBit j then (1 : Nat) else 0) hmem
  have hR := Finset.add_sum_erase (Finset.range 64)
    (fun j => if x.testBit j then (1 : Nat) else 0) hmem
  have hdbit : (x ^^^ 1 <<< d).testBit d = true := by
    rw [Nat.testBit_xor, Nat.one_shiftLeft, Nat.testBit_two_pow_self, h]
    rfl
  have hsame : ∀ j ∈ (Finset.range 64).erase d,
      (if (x ^^^ 1 <<< d).testBit j then (1 : Nat) else 0) = if x.testBit j then 1 else 0 := by
    intro j hj
    have hne : d ≠ j := (Finset.ne_of_mem_erase hj).symm
    rw [Nat.testBit_xor, Nat.one_shiftLeft, Nat.testBit_two_pow_of_ne hne]
    cases x.testBit j <;> rfl
  rw [popCount64, popCount64, ← hL, ← hR, Finset.sum_congr rfl hsame]
  simp only [hdbit, h]
  norm_num [Nat.add_comm, Nat.add_assoc, Nat.add_left_comm]

/-- Clearing one bit with a mask is either an xor (bit present: a capture)
or a no-op (bit absent). -/
theorem and_not64_pow (me d : Nat) (hme : me < 2 ^ 64) (hd : d < 64) :
    me &&& not64 (1 <<< d) = if me.testBit d = true then me ^^^ 1 <<< d else me := by
  apply Nat.eq_of_testBit_eq
  intro j
  rcases Nat.lt_or_ge j 64 with hj | hj
  · rw [Nat.testBit_and, testBit_not64 _ j hj, Nat.one_shiftLeft, Nat.testBit_two_pow]
    by_cases hjd : d = j
    · subst hjd
      by_cases h : me.testBit d = true <;>
        simp [h, Nat.testBit_xor, Nat.one_shiftLeft, Nat.testBit_two_pow_self]
    · by_cases h : me.testBit d = true <;>
        simp [h, hjd, Nat.testBit_xor, Nat.one_shiftLeft, Nat.testBit_two_pow_of_ne hjd]
  · have hb : me.testBit j = false := Nat.testBit_lt_two_pow
      (Nat.lt_of_lt_of_le hme (Nat.pow_le_pow_right (by norm_num) hj))
    have hp : ((1 : Nat) <<< d).testBit j = false := by
      rw [Nat.one_shiftLeft]
      exact Nat.testBit_lt_two_pow
        (Nat.lt_of_lt_of_le (Nat.pow_lt_pow_right (by norm_num) hd)
          (Nat.pow_le_pow_right (by norm_num) hj))
    rw [Nat.testBit_and, hb, Bool.false_and]
    by_cases h : me.testBit d = true <;> simp [h, Nat.testBit_xor, hb, hp]

/-! ### The claims -/

/-- C1 (counterexample): the structurally valid Position `me = 1 <<< 63`,
`them = 0` of the 4x16 geometry — the advancing side has a piece on the
topmost row — makes the overflow-checked (debug-build) `children` abort:
the `u32` row-index computation `i / WIDTH - 1` underflows at flipped
index 0.  So `children` is not total over all structurally valid Positions
as claimed. -/
theorem claim_C1_counterexample :
    ((1 <<< 63 : Nat) &&& 0 = 0 ∧ (1 <<< 63 : Nat) < 2 ^ AREA 4 16 ∧
      (0 : Nat) < 2 ^ AREA 4 16) ∧
    childrenChecked 4 16 { me := 1 <<< 63, them := 0 } = none := by decide

/-- C1 (amended): `children` and `is_lost` never fail on a structurally
valid Position whose advancing side has no piece on the topmost row: the
overflow-checked (debug-build) semantics succeeds and agrees with the
wrapping (release-build) semantics.  (`is_lost` contains no fallible
arithmetic at all, and on topmost-row pieces the release build still
produces a defined result with an empty move contribution — see C4.) -/
theorem claim_C1_amended (W H : Nat) (s : State) (hg : validGeom W H)
    (hme : s.me < 2 ^ AREA W H)
    (htop : s.me &&& ROW_MASK W <<< (AREA W H - W) = 0) :
    childrenChecked W H s = some (children W H s) := by
  obtain ⟨hW, hW16, h2W, h4W, hA64⟩ := validGeom_facts W H hg
  have hml : s.me < 2 ^ (AREA W H - W) := by
    apply Nat.lt_pow_two_of_testBit
    intro t ht
    rcases Nat.lt_or_ge t (AREA W H) with htA | htA
    · rw [land_eq_zero_iff] at htop
      rcases htop t with h' | h'
      · exact h'
      · exfalso
        rw [Nat.testBit_shiftLeft, ROW_MASK_eq W hW, Nat.testBit_two_pow_sub_one,
          decide_eq_true (show t ≥ AREA W H - W from ht),
          decide_eq_true (show t - (AREA W H - W) < W by omega)] at h'
        exact absurd h' (by simp)
    · exact Nat.testBit_lt_two_pow
        (Nat.lt_of_lt_of_le hme (Nat.pow_le_pow_right (by norm_num) htA))
  show stepAllChecked W (flipBoard (AREA W H) s.them) (flipBoard (AREA W H) s.me)
      (bits (flipBoard (AREA W H) s.me)) =
    some (stepAll W (flipBoard (AREA W H) s.them) (flipBoard (AREA W H) s.me)
      (bits (flipBoard (AREA W H) s.me)))
  apply stepAllChecked_eq _ _ _ _ hW
  intro p hp
  rw [mem_bits] at hp
  obtain ⟨j, hj, hb, rfl⟩ := hp
  refine ⟨?_, hj⟩
  by_contra hjW
  have hjA : j < AREA W H := by omega
  rw [testBit_flipBoard (AREA W H) s.me j hA64 hjA] at hb
  have hz : s.me.testBit (AREA W H - 1 - j) = false :=
    Nat.testBit_lt_two_pow (Nat.lt_of_lt_of_le hml
      (Nat.pow_le_pow_right (by norm_num) (by omega)))
  rw [hz] at hb
  exact absurd hb (by simp)

/-- C1 (witness): the amended statement applied to the 4x16 default
start. -/
theorem claim_C1_witness :
    (validGeom 4 16 ∧ (default 4 16).me < 2 ^ AREA 4 16 ∧
      (default 4 16).me &&& ROW_MASK 4 <<< (AREA 4 16 - 4) = 0) ∧
    childrenChecked 4 16 (default 4 16) = some (children 4 16 (default 4 16)) :=
  ⟨⟨by decide, by decide, by decide⟩,
    claim_C1_amended 4 16 (default 4 16) (by decide) (by decide) (by decide)⟩

/-- C2: every Position reachable from the default start of a valid geometry
through `children` has disjoint bit sets: `mover & opponent == 0` holds for
the initial Position and every generated successor. -/
theorem claim_C2 (W H : Nat) (s : State) (hg : validGeom W H)
    (hr : Reachable W H s) : s.me &&& s.them = 0 := by
  induction hr with
  | init => exact default_disjoint W H hg
  | step h1 h2 ih => exact children_disjoint W H hg _ _ ih h2

/-- C2 (witness): the disjointness at the 4x16 default start itself. -/
theorem claim_C2_witness :
    validGeom 4 16 ∧ (default 4 16).me &&& (default 4 16).them = 0 :=
  ⟨by decide, claim_C2 4 16 (default 4 16) (by decide) Reachable.init⟩

/-- C5: every Position reachable from the default start of a valid geometry
keeps both bit sets inside the `AREA`-bit window — no operation ever sets a
bit at index `AREA` or beyond (a `Nat` below `2 ^ AREA` has set bits exactly
in `[0, AREA)`). -/
theorem claim_C5 (W H : Nat) (s : State) (hg : validGeom W H)
    (hr : Reachable W H s) : s.me < 2 ^ AREA W H ∧ s.them < 2 ^ AREA W H := by
  induction hr with
  | init => exact default_bounds W H hg
  | step h1 h2 ih => exact children_bounds W H hg _ _ h2

/-- C5 (witness): the window bound at the 4x16 default start itself. -/
theorem claim_C5_witness :
    validGeom 4 16 ∧ (default 4 16).me < 2 ^ AREA 4 16 ∧
      (default 4 16).them < 2 ^ AREA 4 16 := by
  refine ⟨by decide, ?_⟩
  exact claim_C5 4 16 (default 4 16) (by decide) Reachable.init

/-- C4 (counterexample): for the structurally valid 4x16 Position with an
advancing piece on the topmost row (`me = 1 <<< 63`), the piece appears at
flipped index 0 and its row-ahead mask does NOT come out as the empty mask:
the wrapped arithmetic produces `ROW_MASK` shifted into the top 4 bits of
the word. -/
theorem claim_C4_counterexample :
    ((1 <<< 63 : Nat) &&& 0 = 0 ∧ (1 <<< 63 : Nat) < 2 ^ AREA 4 16) ∧
    (0, 1) ∈ bits (flipBoard (AREA 4 16) (1 <<< 63)) ∧
    rowMaskFor 4 0 ≠ 0 ∧ rowMaskFor 4 0 = 0xF000000000000000 := by decide

/-- C4 (amended): for a piece of the advancing side already on the last row
(flipped index `i < WIDTH`), the row-ahead mask is not empty — it is
`ROW_MASK` shifted to the top `WIDTH` bits of the 64-bit word — but the
piece still contributes zero candidate moves: its move mask is the empty
mask and its `flat_map` contribution is the empty list, so no bit outside
the `AREA`-bit window (nor any other bit) is ever produced on account of
such a piece. -/
theorem claim_C4_amended (W H me them i : Nat) (hg : validGeom W H) (hi : i < W) :
    rowMaskFor W i = (ROW_MASK W <<< (64 - W)) % 2 ^ 64 ∧
      moveMask W me them i (1 <<< i) = 0 ∧
      childStep W me them (i, 1 <<< i) = [] := by
  obtain ⟨hW, hW16, -, -, -⟩ := validGeom_facts W H hg
  have hz := moveMask_zero_top W me them i hW hW16 hi
  refine ⟨rowMaskFor_underflow W i hW (by omega) hi, hz, ?_⟩
  rw [childStep]
  show mkChildren me (them ^^^ 1 <<< i) (bits (moveMask W me them i (1 <<< i))) = []
  rw [hz]
  rfl

/-- C4 (witness): the amended statement at the 4x16 geometry, flipped
index 0. -/
theorem claim_C4_witness :
    (validGeom 4 16 ∧ 0 < 4) ∧
    (rowMaskFor 4 0 = (ROW_MASK 4 <<< (64 - 4)) % 2 ^ 64 ∧
      moveMask 4 0 0 0 (1 <<< 0) = 0 ∧
      childStep 4 0 0 (0, 1 <<< 0) = []) :=
  ⟨⟨by decide, by decide⟩, claim_C4_amended 4 16 0 0 0 (by decide) (by decide)⟩

/-- C6: `is_lost` returns true exactly when the Position's opponent bit set
has at least one bit inside `ROW_MASK`, the mover's own back-rank row (row 0
of the current frame); in this embedding it is a Bool-valued function of the
Position alone, hence a pure predicate. -/
theorem claim_C6 (W H : Nat) (s : State) (hg : validGeom W H) :
    is_lost W s = true ↔ ∃ j, j < W ∧ s.them.testBit j = true := by
  obtain ⟨hW, -, -⟩ := hg
  rw [is_lost, bne_iff_ne, ne_eq, land_eq_zero_iff]
  simp only [not_forall, not_or, Bool.not_eq_false]
  constructor
  · rintro ⟨j, h1, h2⟩
    rw [ROW_MASK_eq W hW, Nat.testBit_two_pow_sub_one, decide_eq_true_eq] at h2
    exact ⟨j, h2, h1⟩
  · rintro ⟨j, hj, h1⟩
    refine ⟨j, h1, ?_⟩
    rw [ROW_MASK_eq W hW, Nat.testBit_two_pow_sub_one]
    exact decide_eq_true hj

/-- C6 (witness): the characterization applied to a lost 4x16 Position
(an opponent piece on the mover's back rank). -/
theorem claim_C6_witness :
    validGeom 4 16 ∧ (is_lost 4 { me := 0, them := 1 } = true ↔
      ∃ j, j < 4 ∧ ({ me := 0, them := 1 } : State).them.testBit j = true) :=
  ⟨by decide, claim_C6 4 16 { me := 0, them := 1 } (by decide)⟩

/-- C7: the straight-forward destination of the piece `1 <<< i` (the cell
`i - W`, one row ahead) is generated exactly when that cell is empty of both
sides: not occupied by the advancing side's own remaining pieces and not by
the defender.  In particular a straight-forward move is legal only onto an
empty cell, and a generated straight-forward move never lands on (captures)
an opponent piece. -/
theorem claim_C7 (W me them i : Nat) (hW : 1 ≤ W) (hiW : W ≤ i) (hi : i < 64) :
    ((moveMask W me them i (1 <<< i)).testBit (i - W) = true) ↔
      (me.testBit (i - W) = false ∧ them.testBit (i - W) = false) := by
  rw [testBit_moveMask W me them i (i - W) hW hiW hi (by omega)]
  constructor
  · rintro ⟨hthem, hwin, hcand⟩
    rcases hcand with ⟨he, hme⟩ | he | he
    · exact ⟨hme, hthem⟩
    · omega
    · omega
  · rintro ⟨hme, hthem⟩
    refine ⟨hthem, ?_, Or.inl ⟨by omega, hme⟩⟩
    have hq1 : 1 ≤ i / W := (Nat.one_le_div_iff (by omega)).mpr hiW
    obtain ⟨q, hq⟩ : ∃ q, i / W = q + 1 := ⟨i / W - 1, by omega⟩
    have hidm := Nat.div_add_mod i W
    rw [hq, Nat.mul_succ] at hidm
    have hrW : i % W < W := Nat.mod_lt _ (by omega)
    have hsub : i / W - 1 = q := by omega
    rw [hsub]
    rw [Nat.mul_comm W q] at hidm
    generalize q * W = A at *
    omega

/-- C7 (witness): the straight-forward square of the piece at flipped index
8 on an otherwise empty 4-wide board. -/
theorem claim_C7_witness :
    (1 ≤ 4 ∧ 4 ≤ 8 ∧ 8 < 64) ∧
    (((moveMask 4 0 0 8 (1 <<< 8)).testBit (8 - 4) = true) ↔
      ((0 : Nat).testBit (8 - 4) = false ∧ (0 : Nat).testBit (8 - 4) = false)) :=
  ⟨⟨by decide, by decide, by decide⟩, claim_C7 4 0 0 8 (by decide) (by decide) (by decide)⟩

/-- C8: for every valid geometry, every destination `d` generated for the
advancing piece `1 <<< i` lies exactly one row ahead (its flipped row index
is one less) and in the same column or a horizontally adjacent one.  Hence a
piece on the rightmost column never produces a candidate in the leftmost
column of the adjacent row and vice versa: no generated move wraps across a
board edge. -/
theorem claim_C8 (W H me them i d : Nat) (hg : validGeom W H) (hi : i < 64)
    (h : (moveMask W me them i (1 <<< i)).testBit d = true) :
    d / W + 1 = i / W ∧
      (d % W + 1 = i % W ∨ d % W = i % W ∨ d % W = i % W + 1) := by
  obtain ⟨hW, hW16, -, -, -⟩ := validGeom_facts W H hg
  have hdest := moveMask_dest W me them i d hW hW16 hi h
  exact ⟨hdest.2.2.2.1, hdest.2.2.2.2⟩

/-- C8 (witness): the diagonal destination 5 of the piece at flipped index 8
on the 4x16 board stays in the adjacent column of the row ahead. -/
theorem claim_C8_witness :
    (validGeom 4 16 ∧ 8 < 64 ∧ (moveMask 4 0 0 8 (1 <<< 8)).testBit 5 = true) ∧
    (5 / 4 + 1 = 8 / 4 ∧ (5 % 4 + 1 = 8 % 4 ∨ 5 % 4 = 8 % 4 ∨ 5 % 4 = 8 % 4 + 1)) :=
  ⟨⟨by decide, by decide, by decide⟩,
    claim_C8 4 16 0 0 8 5 (by decide) (by decide) (by decide)⟩

/-- C9: for every valid geometry the default starting Position is not lost:
the opponent's two starting rows never intersect the mover's back-rank
mask. -/
theorem claim_C9 (W H : Nat) (hg : validGeom W H) :
    is_lost W (default W H) = false := by
  obtain ⟨hW, -, h2W, h4W, -⟩ := validGeom_facts W H hg
  rw [is_lost]
  have h0 : (default W H).them &&& ROW_MASK W = 0 := by
    rw [Nat.and_comm]
    refine land_eq_zero_of_lt_dvd _ _ W ?_ ?_
    · rw [ROW_MASK_eq W hW]
      exact Nat.sub_lt (Nat.two_pow_pos W) (by norm_num)
    · rw [default_them_eq W H hg]
      exact Dvd.dvd.mul_left (pow_dvd_pow 2 (by omega)) _
  rw [h0]
  rfl

/-- C9 (witness): the 4x16 default start is not lost. -/
theorem claim_C9_witness : validGeom 4 16 ∧ is_lost 4 (default 4 16) = false :=
  ⟨by decide, claim_C9 4 16 (by decide)⟩

/-- C10: across one generated move the side that just moved (the child's
`them`) has exactly as many pieces as the parent's mover, and the child's
mover (the defender) keeps the parent opponent's piece count or loses
exactly one piece to a capture; counts never increase. -/
theorem claim_C10 (W H : Nat) (s c : State) (hg : validGeom W H)
    (hdisj : s.me &&& s.them = 0) (hme : s.me < 2 ^ AREA W H)
    (hthem : s.them < 2 ^ AREA W H) (hc : c ∈ children W H s) :
    popCount64 c.them = popCount64 s.me ∧
      (popCount64 c.me = popCount64 s.them ∨
        popCount64 c.me + 1 = popCount64 s.them) := by
  obtain ⟨hW, hW16, -, -, hA64⟩ := validGeom_facts W H hg
  rw [mem_children] at hc
  obtain ⟨i, hi, hbi, d, hd, hbd, rfl⟩ := hc
  dsimp only
  have hdest := moveMask_dest W _ _ i d hW hW16 hi hbd
  have h1 : popCount64 (flipBoard (AREA W H) s.me ^^^ 1 <<< i) + 1 =
      popCount64 (flipBoard (AREA W H) s.me) :=
    popCount64_flip_true _ i hi hbi
  have hbit_d : (flipBoard (AREA W H) s.me ^^^ 1 <<< i).testBit d = false := by
    rw [Nat.testBit_xor, Nat.one_shiftLeft,
      Nat.testBit_two_pow_of_ne (show i ≠ d by omega), hdest.2.2.1]
    rfl
  have h2 : popCount64 ((flipBoard (AREA W H) s.me ^^^ 1 <<< i) ^^^ 1 <<< d) =
      popCount64 (flipBoard (AREA W H) s.me ^^^ 1 <<< i) + 1 :=
    popCount64_flip_false _ d hd hbit_d
  have hflipme := popCount64_flipBoard (AREA W H) s.me hA64 hme
  have hflipthem := popCount64_flipBoard (AREA W H) s.them hA64 hthem
  constructor
  · omega
  · rw [and_not64_pow _ d (Nat.lt_of_lt_of_le (flipBoard_lt _ _)
      (Nat.pow_le_pow_right (by norm_num) hA64)) hd]
    by_cases hcap : (flipBoard (AREA W H) s.them).testBit d = true
    · right
      rw [if_pos hcap]
      have h3 := popCount64_flip_true _ d hd hcap
      omega
    · left
      rw [if_neg hcap]
      exact hflipthem

/-- C10 (witness): the counts across the first generated move of the 4x16
default start (no capture: the defender keeps all eight pieces). -/
theorem claim_C10_witness :
    (validGeom 4 16 ∧ (default 4 16).me &&& (default 4 16).them = 0 ∧
      (default 4 16).me < 2 ^ AREA 4 16 ∧ (default 4 16).them < 2 ^ AREA 4 16 ∧
      ({ me := 255, them := 0xFE10000000000000 } : State) ∈ children 4 16 (default 4 16)) ∧
    (popCount64 ({ me := 255, them := 0xFE10000000000000 } : State).them =
        popCount64 (default 4 16).me ∧
      (popCount64 ({ me := 255, them := 0xFE10000000000000 } : State).me =
          popCount64 (default 4 16).them ∨
        popCount64 ({ me := 255, them := 0xFE10000000000000 } : State).me + 1 =
          popCount64 (default 4 16).them)) :=
  ⟨⟨by decide, by decide, by decide, by decide, by decide⟩,
    claim_C10 4 16 (default 4 16) { me := 255, them := 0xFE10000000000000 }
      (by decide) (by decide) (by decide) (by decide) (by decide)⟩

set_option maxRecDepth 1000000 in
set_option maxHeartbeats 256000000 in
/-- C3: starting from the default Position of the 4-wide, 16-tall geometry,
`children` reaches exactly 10 positions at depth 1, 100 at depth 2, 1100 at
depth 3 and 12100 at depth 4.  The embedding computes the counts as a pure
function of the position, so they are independent of traversal order by
construction. -/
theorem claim_C3 :
    perft 4 16 1 (default 4 16) = 10 ∧ perft 4 16 2 (default 4 16) = 100 ∧
    perft 4 16 3 (default 4 16) = 1100 ∧ perft 4 16 4 (default 4 16) = 12100 := by
  decide

end Breakthrough
